import Mathlib

/-!
# Timesheet dashboard: verification of the time-entry derivation engine

Shallow embedding of the dashboard's pure core: the label decoder
(`parseHoursFromCategories`), the entry builder (`taskToTimeEntry`), the
day/week aggregator (`groupByDay`, `groupByWeek`), the date-range filter
(`filterByDateRange`), the commit-based hour estimator (`calculateHours`,
`processCommits`) and the plan-loading state transition (`loadPlanData`).

Modelling conventions:
* JavaScript `number` values holding hours or timestamps are embedded as `ℚ`
  (every value the code manipulates here is a small exact decimal, far from
  any floating-point rounding).
* Timestamps (`Date.getTime()`) are rational milliseconds since the epoch;
  `format(date, 'yyyy-MM-dd')` is embedded as the integer day index
  `⌊ms / 86400000⌋`. For valid dates the `yyyy-MM-dd` strings compare
  lexicographically exactly as the day indices compare numerically, and the
  string is injective in the index, so string-keyed maps and string sorts are
  embedded as maps and sorts keyed by the day index.
* JavaScript `Array.prototype.sort` is stable; it is embedded as
  `List.insertionSort`, which is also stable.
* JavaScript object / `Map` iteration is in insertion (first-occurrence) order;
  a `Record<string, T>` argument is embedded as an association list in
  iteration order.
-/

/-- `Math.round`: round half toward positive infinity. -/
def jsRound (q : ℚ) : ℤ := ⌊q + 1/2⌋

/-- Milliseconds per minute. -/
def msPerMinute : ℚ := 60000

/-- Milliseconds per hour. -/
def msPerHour : ℚ := 3600000

/-- Milliseconds per day. -/
def msPerDay : ℚ := 86400000

/-- Calendar-day index of a millisecond timestamp (embeds
`format(date, 'yyyy-MM-dd')` and `startOfDay`). -/
def dayIndex (t : ℚ) : ℤ := ⌊t / msPerDay⌋

/-- Association-list lookup, embedding `map[key]` on a `Record<string, number>`. -/
def lookupQ (m : List (String × ℚ)) (k : String) : Option ℚ :=
  (m.find? (fun p => p.1 = k)).map (·.2)

/-- `CATEGORY_HOURS_MAP`: Planner internal category names to hours. -/
def CATEGORY_HOURS_MAP : List (String × ℚ) :=
  [("category1", 0.5), ("category2", 1), ("category3", 2), ("category4", 3),
   ("category5", 4), ("category6", 5), ("category7", 6), ("category8", 7),
   ("category9", 8)]

/-- `DIRECT_HOURS_MAP`: direct hour labels supported as fallback. -/
def DIRECT_HOURS_MAP : List (String × ℚ) :=
  [("0.5h", 0.5), ("0.5 h", 0.5), ("0.5H", 0.5), ("0.5 H", 0.5),
   ("1h", 1), ("1 h", 1), ("1H", 1), ("1 H", 1),
   ("1.5h", 1.5), ("1.5 h", 1.5), ("1.5H", 1.5), ("1.5 H", 1.5),
   ("2h", 2), ("2 h", 2), ("2H", 2), ("2 H", 2),
   ("2.5h", 2.5), ("2.5 h", 2.5), ("2.5H", 2.5), ("2.5 H", 2.5),
   ("3h", 3), ("3 h", 3), ("3H", 3), ("3 H", 3),
   ("3.5h", 3.5), ("3.5 h", 3.5), ("3.5H", 3.5), ("3.5 H", 3.5),
   ("4h", 4), ("4 h", 4), ("4H", 4), ("4 H", 4),
   ("4.5h", 4.5), ("4.5 h", 4.5), ("4.5H", 4.5), ("4.5 H", 4.5),
   ("5h", 5), ("5 h", 5), ("5H", 5), ("5 H", 5),
   ("5.5h", 5.5), ("5.5 h", 5.5), ("5.5H", 5.5), ("5.5 H", 5.5),
   ("6h", 6), ("6 h", 6), ("6H", 6), ("6 H", 6),
   ("6.5h", 6.5), ("6.5 h", 6.5), ("6.5H", 6.5), ("6.5 H", 6.5),
   ("7h", 7), ("7 h", 7), ("7H", 7), ("7 H", 7),
   ("7.5h", 7.5), ("7.5 h", 7.5), ("7.5H", 7.5), ("7.5 H", 7.5),
   ("8h", 8), ("8 h", 8), ("8H", 8), ("8 H", 8),
   ("9h", 9), ("9 h", 9), ("9H", 9), ("9 H", 9),
   ("10h", 10), ("10 h", 10), ("10H", 10), ("10 H", 10),
   ("12h", 12), ("12 h", 12), ("12H", 12), ("12 H", 12),
   ("30m", 0.5), ("30 m", 0.5), ("30min", 0.5), ("30 min", 0.5),
   ("15m", 0.25), ("15 m", 0.25), ("15min", 0.25), ("15 min", 0.25),
   ("45m", 0.75), ("45 m", 0.75), ("45min", 0.75), ("45 min", 0.75)]

/-- JavaScript default `Number`-to-string rendering, on the integral and half
values that occur in the hour tables (`1` renders as "1", `1.5` as "1.5"). -/
def jsNumToString (q : ℚ) : String :=
  if q.den = 1 then toString q.num else toString (⌊q⌋ : ℤ) ++ ".5"

/-- `getCategoryDisplayLabel`. -/
def getCategoryDisplayLabel (category : String) : String :=
  match lookupQ CATEGORY_HOURS_MAP category with
  | none => category
  | some hours =>
    if hours < 1 then toString (jsRound (hours * 60)) ++ "m"
    else jsNumToString hours ++ "h"

/-- Result record of `parseHoursFromCategories`. -/
structure DecodeResult where
  hours : ℚ
  categoryName : String
  displayLabel : String
deriving DecidableEq, Repr

/-- `parseHoursFromCategories`: first pass over the applied-category flags
against `CATEGORY_HOURS_MAP` (the for-loop with early return is embedded as
`List.find?`), then a fallback pass against `DIRECT_HOURS_MAP`. -/
def parseHoursFromCategories (categories : List (String × Bool)) :
    Option DecodeResult :=
  match categories.find? (fun p => p.2 && (lookupQ CATEGORY_HOURS_MAP p.1).isSome) with
  | some p =>
    some { hours := (lookupQ CATEGORY_HOURS_MAP p.1).getD 0,
           categoryName := p.1,
           displayLabel := getCategoryDisplayLabel p.1 }
  | none =>
    match categories.find? (fun p => p.2 && (lookupQ DIRECT_HOURS_MAP p.1).isSome) with
    | some p =>
      some { hours := (lookupQ DIRECT_HOURS_MAP p.1).getD 0,
             categoryName := p.1,
             displayLabel := p.1 }
    | none => none

/-- Modelled from the spec (§4.1), first pass: iterate in order; on the first
identifier whose flag is true and which exists in the category table, return
its hours with label `"<minutes>m"` when hours < 1 (minutes = round(hours*60))
and `"<hours>h"` otherwise. -/
def decodeSpecCategoryPass : List (String × Bool) → Option DecodeResult
  | [] => none
  | (cid, flag) :: rest =>
    match lookupQ CATEGORY_HOURS_MAP cid with
    | some h =>
      if flag then
        some { hours := h, categoryName := cid,
               displayLabel :=
                 if h < 1 then toString (jsRound (h * 60)) ++ "m"
                 else jsNumToString h ++ "h" }
      else decodeSpecCategoryPass rest
    | none => decodeSpecCategoryPass rest

/-- Modelled from the spec (§4.1), fallback pass: repeat the iteration against
the direct-hour table, returning the identifier text verbatim as label. -/
def decodeSpecDirectPass : List (String × Bool) → Option DecodeResult
  | [] => none
  | (cid, flag) :: rest =>
    match lookupQ DIRECT_HOURS_MAP cid with
    | some h =>
      if flag then
        some { hours := h, categoryName := cid, displayLabel := cid }
      else decodeSpecDirectPass rest
    | none => decodeSpecDirectPass rest

/-- Modelled from the spec (§4.1): `decodeCategoryHours` — category pass, then
direct pass, else none. -/
def decodeCategoryHoursSpec (categories : List (String × Bool)) :
    Option DecodeResult :=
  match decodeSpecCategoryPass categories with
  | some r => some r
  | none => decodeSpecDirectPass categories

/-- `GitCommit` (part_004): commit record; `date` is the parsed timestamp in
milliseconds (`new Date(commit.date).getTime()`). -/
structure GitCommit where
  sha : String
  message : String
  date : ℚ
  repo : String
  repoFullName : String
  author : String
  url : String
deriving DecidableEq, Repr

/-- Ascending-timestamp comparator used by `commits.sort((a, b) => ...)`. -/
def byDateAsc (a b : GitCommit) : Prop := a.date ≤ b.date

instance : DecidableRel byDateAsc :=
  fun a b => inferInstanceAs (Decidable (a.date ≤ b.date))

instance : IsTotal GitCommit byDateAsc := ⟨fun a b => le_total a.date b.date⟩

instance : IsTrans GitCommit byDateAsc := ⟨fun _ _ _ h1 h2 => le_trans h1 h2⟩

/-- The gap-summation loop of `calculateHours`: for each consecutive pair of
timestamps, the gap in minutes clamped to `[15, 240]`
(`Math.min(Math.max(diffMinutes, 15), 240)`), summed. -/
def sumClampedGaps : List ℚ → ℚ
  | a :: b :: rest => min (max ((b - a) / msPerMinute) 15) 240 + sumClampedGaps (b :: rest)
  | _ => 0

/-- `calculateHours` (part_004): 0 for no commits, fixed 2 for a single commit,
otherwise sum of clamped inter-commit gaps plus 30 minutes, rounded to the
nearest half hour (`Math.round(totalMinutes / 30) * 0.5`) and capped at 8. -/
def calculateHours : List GitCommit → ℚ
  | [] => 0
  | [_] => 2
  | c1 :: c2 :: rest =>
    let sorted := (c1 :: c2 :: rest).insertionSort byDateAsc
    let totalMinutes := sumClampedGaps (sorted.map (·.date)) + 30
    min ((jsRound (totalMinutes / 30) : ℚ) * 0.5) 8

/-- Modelled from the spec (§4.4): the gap heuristic — sort ascending by
timestamp; zero commits → 0; exactly one commit → 2.0; otherwise sum over
consecutive pairs of the inter-commit gap in minutes clamped to `[15, 240]`,
plus a fixed 30 minutes, converted to hours, rounded to the nearest 0.5 and
capped at 8.0. -/
def gapHeuristicSpec : List GitCommit → ℚ
  | [] => 0
  | [_] => 2
  | c1 :: c2 :: rest =>
    let ts := ((c1 :: c2 :: rest).insertionSort byDateAsc).map (·.date)
    let gaps := (ts.zip ts.tail).map
      (fun p => min (max ((p.2 - p.1) / msPerMinute) 15) 240)
    let totalMinutes := gaps.sum + 30
    min ((jsRound ((totalMinutes / 60) / (1/2)) : ℚ) * (1/2)) 8

/-- `PlannerTask` (types/planner.ts), restricted to the fields the derivation
engine reads.  Timestamps are parsed milliseconds (`parseISO`); the
applied-category mapping is an association list in payload iteration order.
The assignment/order-hint/board-format fields are never read by the core and
are omitted. -/
structure PlannerTask where
  id : String
  title : String
  planId : String
  bucketId : String
  createdDateTime : ℚ
  completedDateTime : Option ℚ
  dueDateTime : Option ℚ
  startDateTime : Option ℚ
  percentComplete : ℤ
  priority : ℤ
  appliedCategories : List (String × Bool)
deriving DecidableEq, Repr

/-- `TimeEntry` (types/planner.ts).  Checklist items are (title, isChecked)
pairs; the `rawTask` back-reference is omitted (it would make the structure
mutually recursive with `PlannerTask` and the aggregation core never reads
it). -/
structure TimeEntry where
  id : String
  date : ℚ
  title : String
  description : String
  hours : ℚ
  project : Option String
  workType : Option String
  bucketName : Option String
  categoryLabel : Option String
  isCompleted : Bool
  completedDate : Option ℚ
  dueDate : Option ℚ
  priority : ℤ
  percentComplete : ℤ
  checklistItems : List (String × Bool)
deriving DecidableEq, Repr

/-- `taskToTimeEntry` (part_000): decode hours from the applied categories and
resolve the entry date with priority due date > start date > created date. -/
def taskToTimeEntry (task : PlannerTask) (bucketName : Option String) : TimeEntry :=
  let categoryHours := parseHoursFromCategories task.appliedCategories
  let entryDate :=
    match task.dueDateTime with
    | some d => d
    | none =>
      match task.startDateTime with
      | some d => d
      | none => task.createdDateTime
  { id := task.id, date := entryDate, title := task.title, description := "",
    hours := (categoryHours.map DecodeResult.hours).getD 0,
    project := none, workType := bucketName, bucketName := bucketName,
    categoryLabel := categoryHours.map DecodeResult.displayLabel,
    isCompleted := decide (task.percentComplete = 100),
    completedDate := task.completedDateTime,
    dueDate := task.dueDateTime,
    priority := task.priority, percentComplete := task.percentComplete,
    checklistItems := [] }

/-- The `format(entry.date, 'yyyy-MM-dd')` grouping key, as a day index. -/
def dayKey (e : TimeEntry) : ℤ := dayIndex e.date

/-- Ascending-timestamp comparator `(a, b) => a.date.getTime() - b.date.getTime()`. -/
def entryByDateAsc (a b : TimeEntry) : Prop := a.date ≤ b.date

instance : DecidableRel entryByDateAsc :=
  fun a b => inferInstanceAs (Decidable (a.date ≤ b.date))

instance : IsTotal TimeEntry entryByDateAsc := ⟨fun a b => le_total a.date b.date⟩

instance : IsTrans TimeEntry entryByDateAsc := ⟨fun _ _ _ h1 h2 => le_trans h1 h2⟩

/-- Descending-timestamp comparator `(a, b) => b.date.getTime() - a.date.getTime()`. -/
def entryByDateDesc (a b : TimeEntry) : Prop := b.date ≤ a.date

instance : DecidableRel entryByDateDesc :=
  fun a b => inferInstanceAs (Decidable (b.date ≤ a.date))

/-- `DailyTimesheet` (types/planner.ts): `date` is the day index
(`parseISO(dateKey)`); the derived display strings `dateStr` and `dayName`
are pure formatting of `date` and are omitted. -/
structure DailyTimesheet where
  date : ℤ
  entries : List TimeEntry
  totalHours : ℚ
deriving DecidableEq, Repr

/-- `groupByDay` (part_000): partition by calendar-date key, emit groups in
sorted key order (the `yyyy-MM-dd` string sort is the numeric day-index sort),
each group's entries sorted ascending by exact timestamp, with the hour sum of
the group.  The push-per-key map construction makes each group exactly the
input-order sublist with that key, i.e. a `filter`. -/
def groupByDay (entries : List TimeEntry) : List DailyTimesheet :=
  let sortedKeys := List.insertionSort (· ≤ ·) ((entries.map dayKey).dedup)
  sortedKeys.map (fun k =>
    let dayEntries := entries.filter (fun e => dayKey e = k)
    { date := k,
      entries := dayEntries.insertionSort entryByDateAsc,
      totalHours := (dayEntries.map TimeEntry.hours).sum })

/-- `startOfWeek(date, { weekStartsOn: 1 })` as a day-index map: 1970-01-01 is
a Thursday, so JavaScript `getDay()` (0 = Sunday) of day `d` is
`(d + 4) mod 7`, and date-fns subtracts `(getDay() + 6) mod 7` days to reach
Monday. -/
def mondayOf (d : ℤ) : ℤ := d - ((d + 4) % 7 + 6) % 7

/-- The `format(startOfWeek(entry.date), 'yyyy-MM-dd')` grouping key. -/
def weekKey (e : TimeEntry) : ℤ := mondayOf (dayKey e)

/-- `WeeklyTimesheet` (types/planner.ts): `weekEnd` is the Sunday of the week
(`endOfWeek` returns Sunday 23:59:59.999, day index `weekStart + 6`); the
`weekLabel` display string is omitted. -/
structure WeeklyTimesheet where
  weekStart : ℤ
  weekEnd : ℤ
  days : List DailyTimesheet
  totalHours : ℚ
deriving DecidableEq, Repr

/-- `groupByWeek` (part_000): partition by Monday-start week key, emit weeks in
sorted key order, compute the day breakdown by `groupByDay` and densify via
`eachDayOfInterval` to the 7 days Monday..Sunday, inserting empty placeholder
days.  The `daysWithEntries` map lookup is embedded as `find?` (the group day
keys are distinct, so first match is the match). -/
def groupByWeek (entries : List TimeEntry) : List WeeklyTimesheet :=
  let sortedKeys := List.insertionSort (· ≤ ·) ((entries.map weekKey).dedup)
  sortedKeys.map (fun wk =>
    let weekEntries := entries.filter (fun e => weekKey e = wk)
    let days := groupByDay weekEntries
    let completeDays := (List.range 7).map (fun (i : ℕ) =>
      match days.find? (fun d => d.date = wk + (i : ℤ)) with
      | some d => d
      | none => { date := wk + (i : ℤ), entries := [], totalHours := 0 })
    { weekStart := wk, weekEnd := wk + 6, days := completeDays,
      totalHours := (weekEntries.map TimeEntry.hours).sum })

/-- `filterByDateRange` (part_000): keep entries with
`entryDate >= startDate && entryDate <= addHours(endDate, 23)`. -/
def filterByDateRange (entries : List TimeEntry) (startDate endDate : ℚ) :
    List TimeEntry :=
  entries.filter (fun e => startDate ≤ e.date ∧ e.date ≤ endDate + 23 * msPerHour)

/-- Per-repo configuration rows of `props.repos` (part_004). -/
structure RepoConfig where
  id : String
  name : String
  fullName : String
  provider : String
  token : String
  gitlabUrl : Option String
  commitAuthor : Option String
  mappedPlanId : Option String
  mappedBucketId : Option String
  autoCalculate : Bool
  defaultHours : ℚ
deriving DecidableEq, Repr

/-- `DraftEntry` (part_004): `id` is the `"yyyy-MM-dd_repo"` grouping key,
embedded as the (day index, repo) pair it is injectively built from;
`date` is the day index of `parseISO(dateStr)`. -/
structure DraftEntry where
  id : ℤ × String
  date : ℤ
  repo : String
  repoFullName : String
  message : String
  hours : ℚ
  selected : Bool
  commits : List GitCommit
deriving DecidableEq, Repr

/-- Descending-date comparator `(a, b) => b.date.getTime() - a.date.getTime()`
on draft entries. -/
def draftByDateDesc (a b : DraftEntry) : Prop := b.date ≤ a.date

instance : DecidableRel draftByDateDesc :=
  fun a b => inferInstanceAs (Decidable (b.date ≤ a.date))

/-- First-occurrence key order of a JavaScript `Map` built by repeated
`set`/`push`. -/
def firstKeys {α : Type} [DecidableEq α] : List α → List α
  | [] => []
  | a :: rest => a :: firstKeys (rest.filter (fun x => x ≠ a))
termination_by l => l.length
decreasing_by
  simp only [List.length_cons]
  exact Nat.lt_succ_of_le (List.length_filter_le _ _)

/-- `key.split('_')[1]` on the draft key `"yyyy-MM-dd_repo"`: the date part
contains no underscore, so element 1 of the split is the first
underscore-separated segment of the repo name (the whole name when it has no
underscore), i.e. the character prefix before the first underscore. -/
def splitRepoField (repo : String) : String :=
  String.mk (repo.toList.takeWhile (fun ch => ch ≠ '_'))

/-- `message.split(newline)[0]`: the first line of a commit message, i.e. the
character prefix before the first newline. -/
def firstLine (msg : String) : String :=
  String.mk (msg.toList.takeWhile (fun ch => ch ≠ Char.ofNat 10))

/-- `processCommits` (part_004): group commits by the `(day, repo)` string key
in map insertion order, build a draft entry per group — hours from
`calculateHours` when the configured repo has `autoCalculate`, else
`repoConfig?.defaultHours || 2` (`undefined` and `0` both fall back to 2) —
and sort the drafts by date descending. -/
def processCommits (repos : List RepoConfig) (commitsList : List GitCommit) :
    List DraftEntry :=
  let keys := firstKeys (commitsList.map (fun c => (dayIndex c.date, c.repo)))
  let entries := keys.map (fun k =>
    let repoCommits := commitsList.filter
      (fun c => dayIndex c.date = k.1 ∧ c.repo = k.2)
    let repo := splitRepoField k.2
    let repoConfig := repos.find? (fun r => r.name = repo)
    let hours :=
      match repoConfig with
      | some cfg =>
        if cfg.autoCalculate then calculateHours repoCommits
        else if cfg.defaultHours = 0 then 2 else cfg.defaultHours
      | none => 2
    { id := k, date := k.1, repo := repo,
      repoFullName := ((repoCommits.head?).map GitCommit.repoFullName).getD "",
      message := String.intercalate ", "
        (repoCommits.map (fun c => firstLine c.message)),
      hours := hours, selected := true, commits := repoCommits })
  entries.insertionSort draftByDateDesc

/-- `PlannerBucket` (types/planner.ts). -/
structure PlannerBucket where
  id : String
  name : String
  planId : String
  orderHint : String
deriving DecidableEq, Repr

/-- The view state touched by `loadPlanData` (types/planner.ts refs). -/
structure PlanState where
  buckets : List PlannerBucket
  entries : List TimeEntry
  allMyTasks : List TimeEntry
  selectedBucketId : Option String
  loading : Bool
  error : Option String
deriving DecidableEq, Repr

/-- The catch-branch message: `err.message.includes('429')` picks the
rate-limit wording (`includes` holds iff `splitOn` yields at least two
pieces). -/
def loadErrorMessage (msg : String) : String :=
  if (msg.splitOn "429").length ≥ 2 then
    "Too many requests. Please wait a moment and try again."
  else "Failed to load tasks. Please try again."

/-- `loadPlanData` (types/planner.ts): the two sequential awaited fetches are
embedded as `Except`-valued results; a rejection from either lands in the
single catch branch, which records an error message and resets `entries` and
`allMyTasks` to `[]`.  The bucket-name map lookup is embedded as `find?`
(bucket ids are unique in a plan).  `loading := true` and `error := null` at
entry are subsumed by each exit's final field values. -/
def loadPlanData (st : PlanState) (planId : String)
    (bucketsRes : Except String (List PlannerBucket))
    (tasksRes : Except String (List PlannerTask)) : PlanState :=
  match bucketsRes with
  | .error msg =>
    { st with loading := false,
              error := some (loadErrorMessage msg),
              entries := [],
              allMyTasks := [] }
  | .ok buckets =>
    match tasksRes with
    | .error msg =>
      { st with buckets := buckets,
                loading := false,
                error := some (loadErrorMessage msg),
                entries := [],
                allMyTasks := [] }
    | .ok myTasks =>
      let planTasks := myTasks.filter (fun t => t.planId = planId)
      if planTasks.isEmpty then
        { st with buckets := buckets,
                  allMyTasks := [],
                  entries := [],
                  selectedBucketId := none,
                  loading := false,
                  error := none }
      else
        let timeEntries := planTasks.map (fun t =>
          taskToTimeEntry t (some (((buckets.find? (fun b => b.id = t.bucketId)).map
            PlannerBucket.name).getD "Unknown")))
        let sortedE := timeEntries.insertionSort entryByDateDesc
        { buckets := buckets,
          allMyTasks := sortedE,
          entries := sortedE,
          selectedBucketId := none,
          loading := false,
          error := none }

lemma findCategoryPass_eq (cats : List (String × Bool)) :
    (cats.find? (fun p => p.2 && (lookupQ CATEGORY_HOURS_MAP p.1).isSome)).map
      (fun p => ({ hours := (lookupQ CATEGORY_HOURS_MAP p.1).getD 0,
                   categoryName := p.1,
                   displayLabel := getCategoryDisplayLabel p.1 } : DecodeResult))
      = decodeSpecCategoryPass cats := by
  induction cats with
  | nil => rfl
  | cons p rest ih =>
    obtain ⟨cid, flag⟩ := p
    cases hl : lookupQ CATEGORY_HOURS_MAP cid with
    | none =>
      simpa [List.find?_cons, hl, decodeSpecCategoryPass] using ih
    | some h =>
      cases flag with
      | false => simpa [List.find?_cons, hl, decodeSpecCategoryPass] using ih
      | true =>
        simp [List.find?_cons, hl, decodeSpecCategoryPass,
              getCategoryDisplayLabel]

lemma findDirectPass_eq (cats : List (String × Bool)) :
    (cats.find? (fun p => p.2 && (lookupQ DIRECT_HOURS_MAP p.1).isSome)).map
      (fun p => ({ hours := (lookupQ DIRECT_HOURS_MAP p.1).getD 0,
                   categoryName := p.1,
                   displayLabel := p.1 } : DecodeResult))
      = decodeSpecDirectPass cats := by
  induction cats with
  | nil => rfl
  | cons p rest ih =>
    obtain ⟨cid, flag⟩ := p
    cases hl : lookupQ DIRECT_HOURS_MAP cid with
    | none =>
      simpa [List.find?_cons, hl, decodeSpecDirectPass] using ih
    | some h =>
      cases flag with
      | false => simpa [List.find?_cons, hl, decodeSpecDirectPass] using ih
      | true => simp [List.find?_cons, hl, decodeSpecDirectPass]

/-- C5: the label decoder returns, for the first identifier in iteration order
whose flag is true and which is in the category table, that table's hour value
with label `"<minutes>m"` (hours < 1) or `"<hours>h"`; otherwise the first true
identifier found in the direct-hour table with the identifier text verbatim as
label; otherwise none.  Stated as: the implementation coincides with the
decoder modelled from the spec's words. -/
theorem parseHoursFromCategories_eq_spec (cats : List (String × Bool)) :
    parseHoursFromCategories cats = decodeCategoryHoursSpec cats := by
  unfold parseHoursFromCategories decodeCategoryHoursSpec
  rw [← findCategoryPass_eq, ← findDirectPass_eq]
  cases cats.find? (fun p => p.2 && (lookupQ CATEGORY_HOURS_MAP p.1).isSome) with
  | none =>
    cases cats.find? (fun p => p.2 && (lookupQ DIRECT_HOURS_MAP p.1).isSome) with
    | none => rfl
    | some p => rfl
  | some p => rfl

lemma lookupQ_isSome_mem {m : List (String × ℚ)} {k : String}
    (h : (lookupQ m k).isSome) : ∃ p ∈ m, lookupQ m k = some p.2 := by
  unfold lookupQ at *
  cases hf : m.find? (fun p => p.1 = k) with
  | none => rw [hf] at h; simp at h
  | some p => exact ⟨p, List.mem_of_find?_eq_some hf, by simp [hf]⟩

lemma quarter_of_den {q : ℚ} (h : (q * 4).den = 1) : ∃ k : ℤ, q = (k : ℚ) / 4 := by
  refine ⟨(q * 4).num, ?_⟩
  have h4 := (Rat.den_eq_one_iff (q * 4)).mp h
  rw [h4]; ring

lemma table_values_bounds :
    ∀ p ∈ CATEGORY_HOURS_MAP ++ DIRECT_HOURS_MAP,
      (1/4 : ℚ) ≤ p.2 ∧ p.2 ≤ 12 ∧ (p.2 * 4).den = 1 := by
  intro p hp
  fin_cases hp <;> norm_num

lemma parseHours_mem_tables {cats : List (String × Bool)} {r : DecodeResult}
    (h : parseHoursFromCategories cats = some r) :
    ∃ p ∈ CATEGORY_HOURS_MAP ++ DIRECT_HOURS_MAP, r.hours = p.2 := by
  unfold parseHoursFromCategories at h
  cases h1 : cats.find? (fun p => p.2 && (lookupQ CATEGORY_HOURS_MAP p.1).isSome) with
  | some p =>
    rw [h1] at h
    have hp := List.find?_some h1
    simp only [Bool.and_eq_true] at hp
    obtain ⟨q, hq, hlk⟩ := lookupQ_isSome_mem hp.2
    refine ⟨q, List.mem_append_left _ hq, ?_⟩
    cases h; simp [hlk]
  | none =>
    rw [h1] at h
    cases h2 : cats.find? (fun p => p.2 && (lookupQ DIRECT_HOURS_MAP p.1).isSome) with
    | some p =>
      rw [h2] at h
      have hp := List.find?_some h2
      simp only [Bool.and_eq_true] at hp
      obtain ⟨q, hq, hlk⟩ := lookupQ_isSome_mem hp.2
      refine ⟨q, List.mem_append_right _ hq, ?_⟩
      cases h; simp [hlk]
    | none => rw [h2] at h; cases h

lemma sumClampedGaps_nonneg : ∀ l : List ℚ, 0 ≤ sumClampedGaps l
  | [] => le_refl 0
  | [_] => le_refl 0
  | a :: b :: rest => by
    have ih := sumClampedGaps_nonneg (b :: rest)
    have h15 : (0 : ℚ) ≤ min (max ((b - a) / msPerMinute) 15) 240 :=
      le_min (le_max_of_le_right (by norm_num)) (by norm_num)
    unfold sumClampedGaps
    linarith

lemma calculateHours_cons_cons (c1 c2 : GitCommit) (rest : List GitCommit) :
    calculateHours (c1 :: c2 :: rest) =
      min ((jsRound ((sumClampedGaps
            (((c1 :: c2 :: rest).insertionSort byDateAsc).map (·.date)) + 30) / 30) : ℚ)
          * 0.5) 8 := rfl

lemma calculateHours_bounds (commits : List GitCommit) :
    0 ≤ calculateHours commits ∧ calculateHours commits ≤ 8 ∧
      ∃ k : ℤ, calculateHours commits = (k : ℚ) / 2 := by
  match commits with
  | [] =>
    refine ⟨le_refl 0, by norm_num [calculateHours], 0, by norm_num [calculateHours]⟩
  | [c] =>
    exact ⟨by norm_num [calculateHours], by norm_num [calculateHours], 4,
      by norm_num [calculateHours]⟩
  | c1 :: c2 :: rest =>
    rw [calculateHours_cons_cons]
    have hs : 0 ≤ sumClampedGaps (((c1 :: c2 :: rest).insertionSort byDateAsc).map (·.date)) :=
      sumClampedGaps_nonneg _
    set t := sumClampedGaps (((c1 :: c2 :: rest).insertionSort byDateAsc).map (·.date)) + 30
      with ht
    have hround : (0 : ℤ) ≤ jsRound (t / 30) := by
      unfold jsRound
      have h0 : (0 : ℚ) ≤ t / 30 + 1/2 := by
        have : (0:ℚ) ≤ t := by rw [ht]; linarith
        positivity
      exact Int.le_floor.mpr (by exact_mod_cast h0)
    have hcast : (0 : ℚ) ≤ (jsRound (t / 30) : ℚ) := by exact_mod_cast hround
    refine ⟨le_min (by nlinarith) (by norm_num), min_le_right _ _, ?_⟩
    rcases le_total ((jsRound (t / 30) : ℚ) * 0.5) 8 with hle | hle
    · exact ⟨jsRound (t / 30), by rw [min_eq_left hle]; ring_nf⟩
    · exact ⟨16, by rw [min_eq_right hle]; norm_num⟩

/-- C1 (amended): every hour value the label decoder returns is a value of the
fixed tables, hence lies in `[0.25, 12]` and is a multiple of `0.25` (the
direct-hour table contains `0.25`, `0.75`, `9`, `10` and `12`); every hour
value the commit estimator produces lies in `[0, 8]` and is a multiple of
`0.5`, the internal minute summation being rounded to the nearest `0.5` only
at the end. -/
theorem decode_estimate_hour_bounds :
    (∀ (cats : List (String × Bool)) (r : DecodeResult),
      parseHoursFromCategories cats = some r →
        (1/4 : ℚ) ≤ r.hours ∧ r.hours ≤ 12 ∧ ∃ k : ℤ, r.hours = (k : ℚ) / 4) ∧
    (∀ commits : List GitCommit,
      0 ≤ calculateHours commits ∧ calculateHours commits ≤ 8 ∧
        ∃ k : ℤ, calculateHours commits = (k : ℚ) / 2) := by
  constructor
  · intro cats r h
    obtain ⟨p, hp, hval⟩ := parseHours_mem_tables h
    obtain ⟨h1, h2, h3⟩ := table_values_bounds p hp
    exact ⟨hval ▸ h1, hval ▸ h2, hval ▸ quarter_of_den h3⟩
  · exact calculateHours_bounds

/-- C1 witness: the bounds theorem applied to the concrete mapping
`{"2h": true}` (which decodes to 2h via the direct table) and to the empty
commit list. -/
theorem decode_estimate_hour_bounds_witness :
    ((1/4 : ℚ) ≤ (2 : ℚ) ∧ (2 : ℚ) ≤ 12 ∧ ∃ k : ℤ, (2 : ℚ) = (k : ℚ) / 4) ∧
    (0 ≤ calculateHours [] ∧ calculateHours [] ≤ 8 ∧
      ∃ k : ℤ, calculateHours [] = (k : ℚ) / 2) := by
  constructor
  · exact decode_estimate_hour_bounds.1 [("2h", true)]
      { hours := 2, categoryName := "2h", displayLabel := "2h" }
      (by simp [parseHoursFromCategories, lookupQ, CATEGORY_HOURS_MAP,
            DIRECT_HOURS_MAP, List.find?])
  · exact decode_estimate_hour_bounds.2 []

/-- C1 counterexample: the decoder itself escapes the claimed `[0, 8]`
half-hour grid — the direct label "12h" decodes to 12 > 8, and "15m" decodes
to 0.25, which is not a multiple of 0.5. -/
theorem decode_hour_invariant_refuted :
    (parseHoursFromCategories [("12h", true)]).map DecodeResult.hours = some 12 ∧
    ¬ ((12 : ℚ) ≤ 8) ∧
    (parseHoursFromCategories [("15m", true)]).map DecodeResult.hours = some (1/4) ∧
    ∀ k : ℤ, (1/4 : ℚ) ≠ (k : ℚ) / 2 := by
  refine ⟨?_, by norm_num, ?_, ?_⟩
  · simp [parseHoursFromCategories, lookupQ, CATEGORY_HOURS_MAP, DIRECT_HOURS_MAP,
      List.find?]
  · simp [parseHoursFromCategories, lookupQ, CATEGORY_HOURS_MAP, DIRECT_HOURS_MAP,
      List.find?]
    norm_num
  · intro k hk
    have h1 : (2 * (k : ℚ)) = 1 := by
      field_simp at hk
      linarith
    have h2 : (2 * k : ℤ) = 1 := by exact_mod_cast h1
    omega

lemma sumClampedGaps_eq_zip : ∀ ts : List ℚ,
    sumClampedGaps ts =
      ((ts.zip ts.tail).map (fun p => min (max ((p.2 - p.1) / msPerMinute) 15) 240)).sum
  | [] => rfl
  | [_] => rfl
  | a :: b :: rest => by
    have ih := sumClampedGaps_eq_zip (b :: rest)
    simp only [sumClampedGaps, ih, List.tail_cons, List.zip_cons_cons, List.map_cons,
      List.sum_cons]

/-- C2 (amended): the estimator agrees everywhere with the spec's gap
heuristic (zero commits → 0, one commit → 2.0, otherwise clamped-gap sum plus
30 minutes, rounded to the nearest 0.5 — ties rounding up — and capped at 8);
a single commit estimates 2.0h, two commits 6 hours apart estimate 4.5h, and
two commits 10 minutes apart estimate 1.0h (45 minutes is equidistant between
0.5h and 1.0h and `Math.round` rounds the tie up). -/
theorem calculateHours_matches_gap_heuristic :
    (∀ commits : List GitCommit, calculateHours commits = gapHeuristicSpec commits) ∧
    (∀ c : GitCommit, calculateHours [c] = 2) ∧
    (∀ c1 c2 : GitCommit, c2.date = c1.date + 10 * msPerMinute →
      calculateHours [c1, c2] = 1) ∧
    (∀ c1 c2 : GitCommit, c2.date = c1.date + 360 * msPerMinute →
      calculateHours [c1, c2] = 4.5) := by
  have hmain : ∀ commits : List GitCommit,
      calculateHours commits = gapHeuristicSpec commits := by
    intro commits
    match commits with
    | [] => rfl
    | [_] => rfl
    | c1 :: c2 :: rest =>
      rw [calculateHours_cons_cons]
      show _ = gapHeuristicSpec (c1 :: c2 :: rest)
      unfold gapHeuristicSpec
      rw [sumClampedGaps_eq_zip]
      rw [show ∀ S : ℚ, (S + 30) / 30 = ((S + 30) / 60) / (1/2) from fun S => by ring]
      norm_num
  have htwo : ∀ (c1 c2 : GitCommit) (d : ℚ), c2.date = c1.date + d → 0 ≤ d →
      calculateHours [c1, c2] =
        min ((jsRound ((min (max (d / msPerMinute) 15) 240 + 30) / 30) : ℚ) * 0.5) 8 := by
    intro c1 c2 d hd hd0
    rw [calculateHours_cons_cons]
    have hle : byDateAsc c1 c2 := by
      unfold byDateAsc; rw [hd]; linarith
    have hsort : (([c1, c2] : List GitCommit).insertionSort byDateAsc) = [c1, c2] := by
      simp [List.insertionSort, List.orderedInsert, hle]
    rw [hsort]
    simp only [List.map_cons, List.map_nil, sumClampedGaps, hd]
    ring_nf
  refine ⟨hmain, fun c => rfl, ?_, ?_⟩
  · intro c1 c2 hd
    rw [htwo c1 c2 (10 * msPerMinute) hd (by norm_num [msPerMinute])]
    norm_num [msPerMinute, jsRound]
  · intro c1 c2 hd
    rw [htwo c1 c2 (360 * msPerMinute) hd (by norm_num [msPerMinute])]
    norm_num [msPerMinute, jsRound]

/-- C2 witness: the gap-heuristic theorem applied to concrete commit pairs 10
minutes apart and 6 hours apart (timestamps in milliseconds). -/
theorem calculateHours_matches_gap_heuristic_witness :
    calculateHours [⟨"a", "m1", 0, "r", "o/r", "dev", "u"⟩,
                    ⟨"b", "m2", 600000, "r", "o/r", "dev", "u"⟩] = 1 ∧
    calculateHours [⟨"a", "m1", 0, "r", "o/r", "dev", "u"⟩,
                    ⟨"c", "m3", 21600000, "r", "o/r", "dev", "u"⟩] = 4.5 := by
  constructor
  · exact calculateHours_matches_gap_heuristic.2.2.1 _ _
      (by show (600000 : ℚ) = 0 + 10 * msPerMinute; norm_num [msPerMinute])
  · exact calculateHours_matches_gap_heuristic.2.2.2 _ _
      (by show (21600000 : ℚ) = 0 + 360 * msPerMinute; norm_num [msPerMinute])

/-- C2 counterexample: two commits 10 minutes apart (timestamps 0 and 600000
ms) estimate 1.0 hour, not the claimed 0.5 — the clamped gap is 15, the total
45 minutes, and `Math.round(45 / 30) = Math.round(1.5)` rounds the tie up
to 2 half-hours. -/
theorem gapHeuristic_ten_minutes_refuted :
    calculateHours [⟨"a", "m1", 0, "r", "o/r", "dev", "u"⟩,
                    ⟨"b", "m2", 600000, "r", "o/r", "dev", "u"⟩] = 1 ∧
    (1 : ℚ) ≠ 0.5 := by
  constructor
  · rw [calculateHours_cons_cons]
    have hle : byDateAsc ⟨"a", "m1", 0, "r", "o/r", "dev", "u"⟩
        ⟨"b", "m2", 600000, "r", "o/r", "dev", "u"⟩ := by
      show (0 : ℚ) ≤ 600000
      norm_num
    have hsort : (([⟨"a", "m1", 0, "r", "o/r", "dev", "u"⟩,
        ⟨"b", "m2", 600000, "r", "o/r", "dev", "u"⟩] : List GitCommit).insertionSort
          byDateAsc) =
        [⟨"a", "m1", 0, "r", "o/r", "dev", "u"⟩,
         ⟨"b", "m2", 600000, "r", "o/r", "dev", "u"⟩] := by
      simp [List.insertionSort, List.orderedInsert, hle]
    rw [hsort]
    simp only [List.map_cons, List.map_nil, sumClampedGaps]
    norm_num [msPerMinute, jsRound]
  · norm_num

lemma groupByDay_map_date (entries : List TimeEntry) :
    (groupByDay entries).map DailyTimesheet.date =
      List.insertionSort (· ≤ ·) ((entries.map dayKey).dedup) := by
  unfold groupByDay
  rw [List.map_map]
  exact List.map_id _

lemma groupByDay_keys_nodup (entries : List TimeEntry) :
    ((groupByDay entries).map DailyTimesheet.date).Nodup := by
  rw [groupByDay_map_date]
  exact (List.perm_insertionSort _ _).nodup_iff.mpr (List.nodup_dedup _)

lemma mem_groupByDay {entries : List TimeEntry} {d : DailyTimesheet}
    (hd : d ∈ groupByDay entries) :
    d.date ∈ (entries.map dayKey).dedup ∧
    d.entries = (entries.filter (fun e => dayKey e = d.date)).insertionSort
      entryByDateAsc ∧
    d.totalHours = ((entries.filter (fun e => dayKey e = d.date)).map
      TimeEntry.hours).sum := by
  unfold groupByDay at hd
  obtain ⟨k, hk, rfl⟩ := List.mem_map.mp hd
  exact ⟨(List.perm_insertionSort _ _).mem_iff.mp hk, rfl, rfl⟩

lemma groupByDay_covers {entries : List TimeEntry} {e : TimeEntry}
    (he : e ∈ entries) :
    ∃ d ∈ groupByDay entries, d.date = dayKey e := by
  unfold groupByDay
  refine ⟨_, List.mem_map_of_mem _ ((List.perm_insertionSort _ _).mem_iff.mpr
    (List.mem_dedup.mpr (List.mem_map_of_mem dayKey he))), rfl⟩

/-- C6: `groupByDay` emits one group per distinct calendar date in strictly
ascending date order; within each group the entries are sorted ascending by
exact timestamp, and the group total equals the sum of its member entries'
hours. -/
theorem groupByDay_ordered_groups (entries : List TimeEntry) :
    ((groupByDay entries).map DailyTimesheet.date).Pairwise (· < ·) ∧
    (∀ k : ℤ, k ∈ (groupByDay entries).map DailyTimesheet.date ↔
      ∃ e ∈ entries, dayKey e = k) ∧
    ∀ d ∈ groupByDay entries,
      d.entries.Pairwise (fun a b => a.date ≤ b.date) ∧
      d.totalHours = (d.entries.map TimeEntry.hours).sum := by
  refine ⟨?_, ?_, ?_⟩
  · rw [groupByDay_map_date]
    have hsorted : ((entries.map dayKey).dedup.insertionSort (· ≤ ·)).Pairwise
        (fun a b : ℤ => a ≤ b) := List.sorted_insertionSort (· ≤ ·) _
    have hnodup : ((entries.map dayKey).dedup.insertionSort (· ≤ ·)).Nodup :=
      (List.perm_insertionSort _ _).nodup_iff.mpr (List.nodup_dedup _)
    exact (hsorted.and hnodup).imp (fun h => lt_of_le_of_ne h.1 h.2)
  · intro k
    rw [groupByDay_map_date, (List.perm_insertionSort _ _).mem_iff,
      List.mem_dedup, List.mem_map]
  · intro d hd
    obtain ⟨-, hent, htot⟩ := mem_groupByDay hd
    constructor
    · rw [hent]
      exact List.sorted_insertionSort entryByDateAsc _
    · rw [htot, hent]
      exact (((List.perm_insertionSort entryByDateAsc _).map
        TimeEntry.hours).sum_eq).symm

/-- C6 witness: the ordering/total theorem applied to the one-entry list with
timestamp 0 and 2 hours, whose single group is day 0 with total 2. -/
theorem groupByDay_ordered_groups_witness :
    groupByDay [⟨"e1", 0, "t", "", 2, none, none, none, none, false, none,
      none, 0, 0, []⟩] =
      [⟨0, [⟨"e1", 0, "t", "", 2, none, none, none, none, false, none,
        none, 0, 0, []⟩], 2⟩] ∧
    (⟨0, [⟨"e1", 0, "t", "", 2, none, none, none, none, false, none,
        none, 0, 0, []⟩], 2⟩ : DailyTimesheet).entries.Pairwise
      (fun a b => a.date ≤ b.date) ∧
    (⟨0, [⟨"e1", 0, "t", "", 2, none, none, none, none, false, none,
        none, 0, 0, []⟩], 2⟩ : DailyTimesheet).totalHours =
      ((⟨0, [⟨"e1", 0, "t", "", 2, none, none, none, none, false, none,
        none, 0, 0, []⟩], 2⟩ : DailyTimesheet).entries.map TimeEntry.hours).sum := by
  have hday : dayKey ⟨"e1", 0, "t", "", 2, none, none, none, none, false, none,
      none, 0, 0, []⟩ = 0 := by
    show (⌊(0 : ℚ) / msPerDay⌋ : ℤ) = 0
    norm_num [msPerDay]
  have heq : groupByDay [⟨"e1", 0, "t", "", 2, none, none, none, none, false,
      none, none, 0, 0, []⟩] =
      [⟨0, [⟨"e1", 0, "t", "", 2, none, none, none, none, false, none,
        none, 0, 0, []⟩], 2⟩] := by
    unfold groupByDay
    simp [hday, List.insertionSort, List.orderedInsert, List.filter]
  have h := (groupByDay_ordered_groups [⟨"e1", 0, "t", "", 2, none, none, none,
    none, false, none, none, 0, 0, []⟩]).2.2
    ⟨0, [⟨"e1", 0, "t", "", 2, none, none, none, none, false, none,
      none, 0, 0, []⟩], 2⟩
    (by rw [heq]; exact List.mem_singleton_self _)
  exact ⟨heq, h.1, h.2⟩

lemma sum_map_ite_eq {β : Type} [AddCommMonoid β] (k0 : ℤ) (c : β) :
    ∀ keys : List ℤ, keys.Nodup → k0 ∈ keys →
      (keys.map (fun k => if k0 = k then c else 0)).sum = c
  | [], _, hmem => absurd hmem (List.not_mem_nil _)
  | k :: ks, hnd, hmem => by
    by_cases hk : k0 = k
    · subst hk
      have hnot : k0 ∉ ks := (List.nodup_cons.mp hnd).1
      have hzero : (ks.map (fun k => if k0 = k then c else 0)).sum = 0 := by
        apply List.sum_eq_zero
        intro b hb
        obtain ⟨k', hk', rfl⟩ := List.mem_map.mp hb
        exact if_neg (fun h => hnot (by rw [h]; exact hk'))
      simp [hzero]
    · have hmem' : k0 ∈ ks := (List.mem_cons.mp hmem).resolve_left hk
      have ih := sum_map_ite_eq k0 c ks (List.nodup_cons.mp hnd).2 hmem'
      simp [hk, ih]

lemma count_filter_dayKey (entries : List TimeEntry) (x : TimeEntry) (k : ℤ) :
    (entries.filter (fun e => dayKey e = k)).count x =
      if dayKey x = k then entries.count x else 0 := by
  by_cases hk : dayKey x = k
  · rw [if_pos hk, List.count_filter]
    simpa using hk
  · rw [if_neg hk, List.count_eq_zero]
    intro hmem
    exact hk (by simpa using (List.mem_filter.mp hmem).2)

lemma groupByDay_map_entries (entries : List TimeEntry) :
    (groupByDay entries).map DailyTimesheet.entries =
      (List.insertionSort (· ≤ ·) ((entries.map dayKey).dedup)).map
        (fun k => (entries.filter (fun e => dayKey e = k)).insertionSort
          entryByDateAsc) := by
  unfold groupByDay
  rw [List.map_map]
  exact List.map_congr_left (fun k _ => rfl)

/-- C7: flattening the day groups of `groupByDay` yields exactly the original
entries as a multiset — no entry dropped, none duplicated. -/
theorem groupByDay_flatten_perm (entries : List TimeEntry) :
    ((groupByDay entries).map DailyTimesheet.entries).flatten.Perm entries := by
  rw [List.perm_iff_count]
  intro x
  rw [groupByDay_map_entries, List.count_flatten, List.map_map]
  rw [List.map_congr_left
    (g := fun k => if dayKey x = k then entries.count x else 0)
    (fun k _ => by
      show ((entries.filter (fun e => dayKey e = k)).insertionSort
        entryByDateAsc).count x = _
      rw [(List.perm_insertionSort entryByDateAsc _).count_eq,
        count_filter_dayKey])]
  by_cases hx : x ∈ entries
  · exact sum_map_ite_eq (dayKey x) (entries.count x) _
      ((List.perm_insertionSort _ _).nodup_iff.mpr (List.nodup_dedup _))
      ((List.perm_insertionSort _ _).mem_iff.mpr
        (List.mem_dedup.mpr (List.mem_map_of_mem dayKey hx)))
  · rw [List.count_eq_zero.mpr hx]
    apply List.sum_eq_zero
    intro b hb
    obtain ⟨k', hk', rfl⟩ := List.mem_map.mp hb
    simp

lemma mondayOf_le_sub (d : ℤ) : 0 ≤ d - mondayOf d ∧ d - mondayOf d ≤ 6 := by
  unfold mondayOf
  omega

lemma mondayOf_idem (d : ℤ) : mondayOf (mondayOf d) = mondayOf d := by
  unfold mondayOf
  omega

lemma sum_filter_partition {α : Type} (key : α → ℤ) (f : α → ℚ)
    (keys : List ℤ) (hnd : keys.Nodup) :
    ∀ l : List α, (∀ a ∈ l, key a ∈ keys) →
      (keys.map (fun k => ((l.filter (fun a => key a = k)).map f).sum)).sum
        = (l.map f).sum := by
  intro l
  induction l with
  | nil =>
    intro _
    simp
  | cons a l ih =>
    intro hcov
    have hcova : key a ∈ keys := hcov a (List.mem_cons_self a l)
    have hcovl : ∀ b ∈ l, key b ∈ keys :=
      fun b hb => hcov b (List.mem_cons_of_mem a hb)
    have hstep : ∀ k : ℤ, (((a :: l).filter (fun b => key b = k)).map f).sum
        = (if key a = k then f a else 0) +
          ((l.filter (fun b => key b = k)).map f).sum := by
      intro k
      by_cases hk : key a = k
      · simp [List.filter_cons, hk]
      · simp [List.filter_cons, hk]
    rw [List.map_congr_left (fun k _ => hstep k), List.sum_map_add,
      sum_map_ite_eq (key a) (f a) keys hnd hcova, ih hcovl]
    simp

lemma mem_groupByWeek {entries : List TimeEntry} {w : WeeklyTimesheet}
    (hw : w ∈ groupByWeek entries) :
    w.weekStart ∈ (entries.map weekKey).dedup ∧
    w.weekEnd = w.weekStart + 6 ∧
    w.days = (List.range 7).map (fun (i : ℕ) =>
      match (groupByDay (entries.filter (fun e => weekKey e = w.weekStart))).find?
          (fun d => d.date = w.weekStart + (i : ℤ)) with
      | some d => d
      | none => { date := w.weekStart + (i : ℤ), entries := [], totalHours := 0 }) ∧
    w.totalHours = ((entries.filter (fun e => weekKey e = w.weekStart)).map
      TimeEntry.hours).sum := by
  unfold groupByWeek at hw
  obtain ⟨wk, hk, rfl⟩ := List.mem_map.mp hw
  exact ⟨(List.perm_insertionSort _ _).mem_iff.mp hk, rfl, rfl, rfl⟩

lemma groupByDay_find?_none {l : List TimeEntry} {k : ℤ}
    (h : (groupByDay l).find? (fun d => d.date = k) = none) :
    ∀ e ∈ l, dayKey e ≠ k := by
  intro e he hk
  obtain ⟨d, hd, hdate⟩ := groupByDay_covers he
  have hne := List.find?_eq_none.mp h d hd
  simp [hdate, hk] at hne

lemma weekDay_total (weekEntries : List TimeEntry) (k : ℤ) :
    DailyTimesheet.totalHours
      (match (groupByDay weekEntries).find? (fun d => d.date = k) with
       | some d => d
       | none => { date := k, entries := [], totalHours := 0 }) =
    ((weekEntries.filter (fun e => dayKey e = k)).map TimeEntry.hours).sum := by
  cases hf : (groupByDay weekEntries).find? (fun d => d.date = k) with
  | none =>
    have hnil : weekEntries.filter (fun e => dayKey e = k) = [] := by
      rw [List.filter_eq_nil_iff]
      intro e he
      simpa using groupByDay_find?_none hf e he
    simp [hnil]
  | some d =>
    have hdate : d.date = k := by simpa using List.find?_some hf
    have hmem := List.mem_of_find?_eq_some hf
    obtain ⟨-, -, htot⟩ := mem_groupByDay hmem
    simpa [hdate] using htot

/-- C3: every week produced by `groupByWeek` has exactly 7 consecutive days
starting at its Monday-aligned week start; a day with no matching entry is the
zero-total empty placeholder, and the week total equals the sum of the 7 daily
totals. -/
theorem groupByWeek_seven_days (entries : List TimeEntry) (w : WeeklyTimesheet)
    (hw : w ∈ groupByWeek entries) :
    w.days.length = 7 ∧
    mondayOf w.weekStart = w.weekStart ∧
    (∀ (i : ℕ) (h : i < w.days.length),
      (w.days.get ⟨i, h⟩).date = w.weekStart + (i : ℤ)) ∧
    (∀ (i : ℕ) (h : i < w.days.length),
      (∀ e ∈ entries, dayKey e ≠ w.weekStart + (i : ℤ)) →
        (w.days.get ⟨i, h⟩).entries = [] ∧ (w.days.get ⟨i, h⟩).totalHours = 0) ∧
    w.totalHours = (w.days.map DailyTimesheet.totalHours).sum := by
  obtain ⟨hmem, hend, hdays, htot⟩ := mem_groupByWeek hw
  have hlen : w.days.length = 7 := by rw [hdays]; simp
  have hmonday : mondayOf w.weekStart = w.weekStart := by
    rw [List.mem_dedup, List.mem_map] at hmem
    obtain ⟨e, -, hk⟩ := hmem
    rw [← hk]
    exact mondayOf_idem (dayKey e)
  set wE := entries.filter (fun e => weekKey e = w.weekStart) with hwE
  have hget : ∀ (i : ℕ) (h : i < w.days.length),
      w.days.get ⟨i, h⟩ =
        match (groupByDay wE).find? (fun d => d.date = w.weekStart + (i : ℤ)) with
        | some d => d
        | none => { date := w.weekStart + (i : ℤ), entries := [], totalHours := 0 } := by
    intro i h
    have hi : i < 7 := hlen ▸ h
    rw [List.get_eq_getElem]
    have h7 : i < (List.range 7).length := by simpa using hi
    simp only [hdays, List.getElem_map, List.getElem_range]
  refine ⟨hlen, hmonday, ?_, ?_, ?_⟩
  · intro i h
    rw [hget i h]
    cases hf : (groupByDay wE).find? (fun d => d.date = w.weekStart + (i : ℤ)) with
    | none => rfl
    | some d => simpa using List.find?_some hf
  · intro i h hnone
    rw [hget i h]
    cases hf : (groupByDay wE).find? (fun d => d.date = w.weekStart + (i : ℤ)) with
    | none => exact ⟨rfl, rfl⟩
    | some d =>
      exfalso
      have hdate : d.date = w.weekStart + (i : ℤ) := by
        simpa using List.find?_some hf
      obtain ⟨hk, -, -⟩ := mem_groupByDay (List.mem_of_find?_eq_some hf)
      rw [List.mem_dedup, List.mem_map] at hk
      obtain ⟨e, he, hke⟩ := hk
      exact hnone e (List.mem_of_mem_filter he) (by rw [hke, hdate])
  · rw [htot]
    have hmapdays : w.days.map DailyTimesheet.totalHours =
        (List.range 7).map (fun (i : ℕ) =>
          ((wE.filter (fun e => dayKey e = w.weekStart + (i : ℤ))).map
            TimeEntry.hours).sum) := by
      rw [hdays, List.map_map]
      exact List.map_congr_left (fun i _ => weekDay_total wE (w.weekStart + (i : ℤ)))
    rw [hmapdays]
    have hkeys : (List.range 7).map (fun (i : ℕ) =>
        ((wE.filter (fun e => dayKey e = w.weekStart + (i : ℤ))).map
          TimeEntry.hours).sum) =
        ((List.range 7).map (fun i : ℕ => w.weekStart + (i : ℤ))).map
          (fun k => ((wE.filter (fun e => dayKey e = k)).map TimeEntry.hours).sum) := by
      rw [List.map_map]
      exact List.map_congr_left (fun i _ => rfl)
    rw [hkeys]
    have hnd : ((List.range 7).map (fun i : ℕ => w.weekStart + (i : ℤ))).Nodup := by
      refine List.Nodup.map ?_ (List.nodup_range 7)
      intro a b hab
      have hab2 : w.weekStart + (a : ℤ) = w.weekStart + (b : ℤ) := hab
      omega
    have hcov : ∀ e ∈ wE, dayKey e ∈
        (List.range 7).map (fun i : ℕ => w.weekStart + (i : ℤ)) := by
      intro e he
      have hwk : weekKey e = w.weekStart := by
        simpa using (List.mem_filter.mp he).2
      have hrange := mondayOf_le_sub (dayKey e)
      rw [show mondayOf (dayKey e) = w.weekStart from hwk] at hrange
      exact List.mem_map.mpr ⟨(dayKey e - w.weekStart).toNat,
        List.mem_range.mpr (by omega), by omega⟩
    exact (sum_filter_partition dayKey TimeEntry.hours _ hnd wE hcov).symm

/-- C3 witness: the seven-day theorem applied to the single entry at timestamp
0 (Thursday 1970-01-01, day 0), whose week is Monday 1969-12-29 (day -3)
through Sunday day 3, with six placeholder days and total 2. -/
theorem groupByWeek_seven_days_witness :
    groupByWeek [⟨"e1", 0, "t", "", 2, none, none, none, none, false, none,
        none, 0, 0, []⟩] =
      [⟨-3, 3, [⟨-3, [], 0⟩, ⟨-2, [], 0⟩, ⟨-1, [], 0⟩,
        ⟨0, [⟨"e1", 0, "t", "", 2, none, none, none, none, false, none,
          none, 0, 0, []⟩], 2⟩, ⟨1, [], 0⟩, ⟨2, [], 0⟩, ⟨3, [], 0⟩], 2⟩] ∧
    (⟨-3, 3, [⟨-3, [], 0⟩, ⟨-2, [], 0⟩, ⟨-1, [], 0⟩,
        ⟨0, [⟨"e1", 0, "t", "", 2, none, none, none, none, false, none,
          none, 0, 0, []⟩], 2⟩, ⟨1, [], 0⟩, ⟨2, [], 0⟩, ⟨3, [], 0⟩], 2⟩ :
      WeeklyTimesheet).days.length = 7 ∧
    (⟨-3, 3, [⟨-3, [], 0⟩, ⟨-2, [], 0⟩, ⟨-1, [], 0⟩,
        ⟨0, [⟨"e1", 0, "t", "", 2, none, none, none, none, false, none,
          none, 0, 0, []⟩], 2⟩, ⟨1, [], 0⟩, ⟨2, [], 0⟩, ⟨3, [], 0⟩], 2⟩ :
      WeeklyTimesheet).totalHours =
      ((⟨-3, 3, [⟨-3, [], 0⟩, ⟨-2, [], 0⟩, ⟨-1, [], 0⟩,
        ⟨0, [⟨"e1", 0, "t", "", 2, none, none, none, none, false, none,
          none, 0, 0, []⟩], 2⟩, ⟨1, [], 0⟩, ⟨2, [], 0⟩, ⟨3, [], 0⟩], 2⟩ :
      WeeklyTimesheet).days.map DailyTimesheet.totalHours).sum := by
  have hday : dayKey ⟨"e1", 0, "t", "", 2, none, none, none, none, false, none,
      none, 0, 0, []⟩ = 0 := by
    show (⌊(0 : ℚ) / msPerDay⌋ : ℤ) = 0
    norm_num [msPerDay]
  have hwk : weekKey ⟨"e1", 0, "t", "", 2, none, none, none, none, false, none,
      none, 0, 0, []⟩ = -3 := by
    unfold weekKey
    rw [hday]
    decide
  have hgd : groupByDay [⟨"e1", 0, "t", "", 2, none, none, none, none, false,
      none, none, 0, 0, []⟩] =
      [⟨0, [⟨"e1", 0, "t", "", 2, none, none, none, none, false, none,
        none, 0, 0, []⟩], 2⟩] := by
    unfold groupByDay
    simp [hday, List.insertionSort, List.orderedInsert, List.filter]
  have hgw : groupByWeek [⟨"e1", 0, "t", "", 2, none, none, none, none, false,
      none, none, 0, 0, []⟩] =
      [⟨-3, 3, [⟨-3, [], 0⟩, ⟨-2, [], 0⟩, ⟨-1, [], 0⟩,
        ⟨0, [⟨"e1", 0, "t", "", 2, none, none, none, none, false, none,
          none, 0, 0, []⟩], 2⟩, ⟨1, [], 0⟩, ⟨2, [], 0⟩, ⟨3, [], 0⟩], 2⟩] := by
    unfold groupByWeek
    rw [show List.range 7 = [0, 1, 2, 3, 4, 5, 6] from by decide]
    simp [hwk, hday, List.insertionSort, List.orderedInsert, List.filter, hgd,
      List.find?]
  have h := groupByWeek_seven_days
    [⟨"e1", 0, "t", "", 2, none, none, none, none, false, none, none, 0, 0, []⟩]
    ⟨-3, 3, [⟨-3, [], 0⟩, ⟨-2, [], 0⟩, ⟨-1, [], 0⟩,
      ⟨0, [⟨"e1", 0, "t", "", 2, none, none, none, none, false, none,
        none, 0, 0, []⟩], 2⟩, ⟨1, [], 0⟩, ⟨2, [], 0⟩, ⟨3, [], 0⟩], 2⟩
    (by rw [hgw]; exact List.mem_singleton_self _)
  exact ⟨hgw, h.1, h.2.2.2.2⟩

/-- C4: `filterByDateRange` keeps exactly the entries with
`start ≤ date ≤ end + 23h` (a literal add-23-hours boundary); an entry dated
exactly at `start` is kept (when the range is non-degenerate), and an entry
one full day past the `end + 23h` boundary is excluded. -/
theorem filterByDateRange_boundary (entries : List TimeEntry) (s en : ℚ) :
    (∀ e, e ∈ filterByDateRange entries s en ↔
      e ∈ entries ∧ s ≤ e.date ∧ e.date ≤ en + 23 * msPerHour) ∧
    (∀ e ∈ entries, e.date = s → s ≤ en → e ∈ filterByDateRange entries s en) ∧
    (∀ e ∈ entries, e.date = en + 23 * msPerHour + msPerDay →
      e ∉ filterByDateRange entries s en) := by
  have hmem : ∀ e, e ∈ filterByDateRange entries s en ↔
      e ∈ entries ∧ s ≤ e.date ∧ e.date ≤ en + 23 * msPerHour := by
    intro e
    unfold filterByDateRange
    rw [List.mem_filter]
    simp
  refine ⟨hmem, ?_, ?_⟩
  · intro e he hdate hse
    refine (hmem e).mpr ⟨he, le_of_eq hdate.symm, ?_⟩
    rw [hdate]
    unfold msPerHour
    linarith
  · intro e he hdate hin
    obtain ⟨-, -, hle⟩ := (hmem e).mp hin
    rw [hdate] at hle
    norm_num [msPerDay] at hle

/-- C4 witness: with start = end = 0, the entry at timestamp 0 is kept and the
entry one full day past the 23:00 boundary (timestamp 169200000 ms) is not. -/
theorem filterByDateRange_boundary_witness :
    (⟨"in", 0, "t", "", 1, none, none, none, none, false, none, none,
      0, 0, []⟩ : TimeEntry) ∈
      filterByDateRange
        [⟨"in", 0, "t", "", 1, none, none, none, none, false, none, none,
          0, 0, []⟩,
         ⟨"out", 169200000, "t", "", 1, none, none, none, none, false, none,
          none, 0, 0, []⟩] 0 0 ∧
    (⟨"out", 169200000, "t", "", 1, none, none, none, none, false, none, none,
      0, 0, []⟩ : TimeEntry) ∉
      filterByDateRange
        [⟨"in", 0, "t", "", 1, none, none, none, none, false, none, none,
          0, 0, []⟩,
         ⟨"out", 169200000, "t", "", 1, none, none, none, none, false, none,
          none, 0, 0, []⟩] 0 0 := by
  constructor
  · exact (filterByDateRange_boundary _ 0 0).2.1 _ (by simp) rfl le_rfl
  · exact (filterByDateRange_boundary _ 0 0).2.2 _ (by simp)
      (by show (169200000 : ℚ) = 0 + 23 * msPerHour + msPerDay
          norm_num [msPerHour, msPerDay])

lemma mem_processCommits {repos : List RepoConfig} {commitsList : List GitCommit}
    {e : DraftEntry} (he : e ∈ processCommits repos commitsList) :
    ∃ k : ℤ × String,
      e.commits = commitsList.filter
        (fun c => dayIndex c.date = k.1 ∧ c.repo = k.2) ∧
      e.date = k.1 ∧
      e.repo = splitRepoField k.2 ∧
      e.hours = (match repos.find? (fun r => r.name = splitRepoField k.2) with
        | some cfg =>
          if cfg.autoCalculate then calculateHours e.commits
          else if cfg.defaultHours = 0 then 2 else cfg.defaultHours
        | none => 2) := by
  unfold processCommits at he
  rw [(List.perm_insertionSort draftByDateDesc _).mem_iff] at he
  obtain ⟨k, hk, rfl⟩ := List.mem_map.mp he
  exact ⟨k, rfl, rfl, rfl, rfl⟩

/-- C8 (amended): for a draft entry whose looked-up repo configuration (keyed
by the entry's repo field, the repo name truncated at the first underscore)
has `autoCalculate = false`, the estimated hours are `defaultHours` when that
is nonzero and fall back to 2 when it is zero (the `|| 2` of
`repoConfig?.defaultHours || 2`). -/
theorem processCommits_manual_hours (repos : List RepoConfig)
    (commitsList : List GitCommit) (e : DraftEntry)
    (he : e ∈ processCommits repos commitsList) (cfg : RepoConfig)
    (hcfg : repos.find? (fun r => r.name = e.repo) = some cfg)
    (hauto : cfg.autoCalculate = false) :
    e.hours = if cfg.defaultHours = 0 then 2 else cfg.defaultHours := by
  obtain ⟨k, -, -, hrepo, hhours⟩ := mem_processCommits he
  rw [hrepo] at hcfg
  rw [hhours, hcfg]
  simp [hauto]

/-- C8 counterexample: a repo configured with `autoCalculate = false` and
`defaultHours = 0` yields a draft entry with 2 hours, not the configured 0
verbatim (`0` is falsy, so `repoConfig?.defaultHours || 2` gives 2). -/
theorem processCommits_manual_hours_refuted :
    (processCommits
      [⟨"r1", "r", "o/r", "github", "tok", none, none, none, none, false, 0⟩]
      [⟨"s", "m", 0, "r", "o/r", "dev", "u"⟩]).map DraftEntry.hours = [2] ∧
    (2 : ℚ) ≠ 0 := by
  constructor
  · have hd0 : dayIndex 0 = 0 := by
      show (⌊(0 : ℚ) / msPerDay⌋ : ℤ) = 0
      norm_num [msPerDay]
    have hsplit : splitRepoField "r" = "r" := by decide
    unfold processCommits
    simp [hd0, hsplit, firstKeys, List.filter, List.find?,
      List.insertionSort, List.orderedInsert]
  · norm_num

/-- C8 witness: the manual-hours theorem applied to a repo configured with
`autoCalculate = false` and `defaultHours = 3`, whose single-commit draft
entry carries 3 hours. -/
theorem processCommits_manual_hours_witness :
    ((processCommits
      [⟨"r1", "r", "o/r", "github", "tok", none, none, none, none, false, 3⟩]
      [⟨"s", "m", 0, "r", "o/r", "dev", "u"⟩]).headD
        ⟨(0, ""), 0, "", "", "", 0, false, []⟩).hours = 3 := by
  have hd0 : dayIndex 0 = 0 := by
    show (⌊(0 : ℚ) / msPerDay⌋ : ℤ) = 0
    norm_num [msPerDay]
  have hsplit : splitRepoField "r" = "r" := by decide
  have hone : processCommits
      [⟨"r1", "r", "o/r", "github", "tok", none, none, none, none, false, 3⟩]
      [⟨"s", "m", 0, "r", "o/r", "dev", "u"⟩] =
      [⟨(0, "r"), 0, "r", "o/r", "m", 3, true,
        [⟨"s", "m", 0, "r", "o/r", "dev", "u"⟩]⟩] := by
    unfold processCommits
    have hline : firstLine "m" = "m" := by decide
    simp [hd0, hsplit, hline, firstKeys, List.filter, List.find?,
      List.insertionSort, List.orderedInsert, String.intercalate]
    rfl
  have h := processCommits_manual_hours
    [⟨"r1", "r", "o/r", "github", "tok", none, none, none, none, false, 3⟩]
    [⟨"s", "m", 0, "r", "o/r", "dev", "u"⟩]
    ⟨(0, "r"), 0, "r", "o/r", "m", 3, true,
      [⟨"s", "m", 0, "r", "o/r", "dev", "u"⟩]⟩
    (by rw [hone]; exact List.mem_singleton_self _)
    ⟨"r1", "r", "o/r", "github", "tok", none, none, none, none, false, 3⟩
    (by simp [List.find?])
    rfl
  rw [hone]
  exact h

/-- C9 (amended): each draft entry's member commits all share one calendar day
(the entry's date) and one repo name; the entry's repo field equals the
portion of each member commit's repo name before the first underscore (hence
the full repo name exactly when that name contains no underscore — the
`key.split('_')[1]` round trip truncates at underscores). -/
theorem processCommits_group_consistency (repos : List RepoConfig)
    (commitsList : List GitCommit) (e : DraftEntry)
    (he : e ∈ processCommits repos commitsList) :
    (∀ c ∈ e.commits, dayIndex c.date = e.date ∧ e.repo = splitRepoField c.repo) ∧
    (∀ c1 ∈ e.commits, ∀ c2 ∈ e.commits,
      c1.repo = c2.repo ∧ dayIndex c1.date = dayIndex c2.date) := by
  obtain ⟨k, hcom, hdate, hrepo, -⟩ := mem_processCommits he
  have hmem : ∀ c ∈ e.commits, dayIndex c.date = k.1 ∧ c.repo = k.2 := by
    intro c hc
    rw [hcom] at hc
    simpa using (List.mem_filter.mp hc).2
  constructor
  · intro c hc
    obtain ⟨h1, h2⟩ := hmem c hc
    exact ⟨by rw [h1, hdate], by rw [hrepo, h2]⟩
  · intro c1 h1 c2 h2
    obtain ⟨a1, b1⟩ := hmem c1 h1
    obtain ⟨a2, b2⟩ := hmem c2 h2
    exact ⟨by rw [b1, b2], by rw [a1, a2]⟩

/-- C9 counterexample: a commit in repo "my_repo" produces a draft entry whose
repo field is "my" — not the member commit's repo name — because the code
splits the `"yyyy-MM-dd_my_repo"` key on every underscore and takes element 1. -/
theorem processCommits_repo_field_refuted :
    (processCommits [] [⟨"s", "m", 0, "my_repo", "o/my_repo", "dev", "u"⟩]).map
      DraftEntry.repo = ["my"] ∧
    (processCommits [] [⟨"s", "m", 0, "my_repo", "o/my_repo", "dev", "u"⟩]).map
      (fun e => e.commits.map GitCommit.repo) = [["my_repo"]] ∧
    ("my" : String) ≠ "my_repo" := by
  have hd0 : dayIndex 0 = 0 := by
    show (⌊(0 : ℚ) / msPerDay⌋ : ℤ) = 0
    norm_num [msPerDay]
  have hsplit : splitRepoField "my_repo" = "my" := by decide
  refine ⟨?_, ?_, by decide⟩
  · unfold processCommits
    simp [hd0, hsplit, firstKeys, List.filter, List.find?,
      List.insertionSort, List.orderedInsert]
  · unfold processCommits
    simp [hd0, firstKeys, List.filter, List.find?,
      List.insertionSort, List.orderedInsert]

/-- C9 witness: the group-consistency theorem applied to the single-commit
group in repo "my_repo" on day 0; its draft entry has date 0 and repo field
"my", the truncation of "my_repo". -/
theorem processCommits_group_consistency_witness :
    dayIndex (0 : ℚ) = (0 : ℤ) ∧ ("my" : String) = splitRepoField "my_repo" := by
  have hd0 : dayIndex 0 = 0 := by
    show (⌊(0 : ℚ) / msPerDay⌋ : ℤ) = 0
    norm_num [msPerDay]
  have hsplit : splitRepoField "my_repo" = "my" := by decide
  have hline : firstLine "m" = "m" := by decide
  have hone : processCommits [] [⟨"s", "m", 0, "my_repo", "o/my_repo", "dev", "u"⟩] =
      [⟨(0, "my_repo"), 0, "my", "o/my_repo", "m", 2, true,
        [⟨"s", "m", 0, "my_repo", "o/my_repo", "dev", "u"⟩]⟩] := by
    unfold processCommits
    simp [hd0, hsplit, hline, firstKeys, List.filter, List.find?,
      List.insertionSort, List.orderedInsert, String.intercalate]
    rfl
  have h := (processCommits_group_consistency []
    [⟨"s", "m", 0, "my_repo", "o/my_repo", "dev", "u"⟩]
    ⟨(0, "my_repo"), 0, "my", "o/my_repo", "m", 2, true,
      [⟨"s", "m", 0, "my_repo", "o/my_repo", "dev", "u"⟩]⟩
    (by rw [hone]; exact List.mem_singleton_self _)).1
    ⟨"s", "m", 0, "my_repo", "o/my_repo", "dev", "u"⟩
    (List.mem_singleton_self _)
  exact h

/-- C10 (amended): when a fetch fails while loading plan data, the operation
surfaces an error to the caller (the error field is set, with distinct
rate-limit wording) and resets the entry state to empty — `entries` and
`allMyTasks` are cleared, not left untouched; no retry and no partial-result
synthesis occur. -/
theorem loadPlanData_failure_resets (st : PlanState) (planId : String)
    (bucketsRes : Except String (List PlannerBucket))
    (tasksRes : Except String (List PlannerTask))
    (hfail : (∃ m, bucketsRes = .error m) ∨ (∃ m, tasksRes = .error m)) :
    ((loadPlanData st planId bucketsRes tasksRes).error).isSome = true ∧
    (loadPlanData st planId bucketsRes tasksRes).entries = [] ∧
    (loadPlanData st planId bucketsRes tasksRes).allMyTasks = [] ∧
    (loadPlanData st planId bucketsRes tasksRes).loading = false := by
  rcases hfail with ⟨m, rfl⟩ | ⟨m, rfl⟩
  · exact ⟨rfl, rfl, rfl, rfl⟩
  · cases bucketsRes with
    | error m2 => exact ⟨rfl, rfl, rfl, rfl⟩
    | ok b => exact ⟨rfl, rfl, rfl, rfl⟩

/-- C10 counterexample: with one entry loaded, a failing task fetch leaves the
state with an empty entry list — the prior entry state is cleared, not kept
stale-but-consistent. -/
theorem loadPlanData_stale_state_refuted :
    (loadPlanData
      ⟨[], [⟨"e1", 0, "t", "", 2, none, none, none, none, false, none, none,
        0, 0, []⟩],
       [⟨"e1", 0, "t", "", 2, none, none, none, none, false, none, none,
        0, 0, []⟩], none, false, none⟩
      "p" (.ok []) (.error "boom")).entries = [] ∧
    ([] : List TimeEntry) ≠
      [⟨"e1", 0, "t", "", 2, none, none, none, none, false, none, none,
        0, 0, []⟩] := by
  exact ⟨rfl, by simp⟩

/-- C10 witness: the failure-reset theorem applied to a concrete prior state
holding one entry and a failing task fetch. -/
theorem loadPlanData_failure_resets_witness :
    ((loadPlanData
      ⟨[], [⟨"e1", 0, "t", "", 2, none, none, none, none, false, none, none,
        0, 0, []⟩],
       [⟨"e1", 0, "t", "", 2, none, none, none, none, false, none, none,
        0, 0, []⟩], none, false, none⟩
      "p" (.ok []) (.error "boom")).error).isSome = true ∧
    (loadPlanData
      ⟨[], [⟨"e1", 0, "t", "", 2, none, none, none, none, false, none, none,
        0, 0, []⟩],
       [⟨"e1", 0, "t", "", 2, none, none, none, none, false, none, none,
        0, 0, []⟩], none, false, none⟩
      "p" (.ok []) (.error "boom")).entries = [] ∧
    (loadPlanData
      ⟨[], [⟨"e1", 0, "t", "", 2, none, none, none, none, false, none, none,
        0, 0, []⟩],
       [⟨"e1", 0, "t", "", 2, none, none, none, none, false, none, none,
        0, 0, []⟩], none, false, none⟩
      "p" (.ok []) (.error "boom")).allMyTasks = [] ∧
    (loadPlanData
      ⟨[], [⟨"e1", 0, "t", "", 2, none, none, none, none, false, none, none,
        0, 0, []⟩],
       [⟨"e1", 0, "t", "", 2, none, none, none, none, false, none, none,
        0, 0, []⟩], none, false, none⟩
      "p" (.ok []) (.error "boom")).loading = false :=
  loadPlanData_failure_resets _ "p" (.ok []) (.error "boom")
    (Or.inr ⟨"boom", rfl⟩)
